import Mathlib

/-!
Shallow embedding of the Schr0dinger repository's system-assembly and linear-solve
core (`ElectrostaticSolver.cpp`, `MatrixSolver.cpp`), with theorems checking the
natural-language specification against it.

Modelling conventions: C++ `double` values are modelled as `ℚ` (exact field
arithmetic) except where the source computes a square root, which is modelled
over `ℝ`; Eigen matrices and vectors are modelled as a shape plus a total entry
map; imperative entry assignment is explicit state passing; a thrown
`std::invalid_argument` is an error value, produced before any write; numeric
routines of the external Eigen library that the repository merely calls
(iterative solver engines, the eigensolver) are abstract parameters, while the
repository's own control flow around them is modelled exactly.
-/

/-- Model of `ElectrostaticSolver::coordToIndex`: the row-major linear index
`idx = j*nx + i` of grid point `(i, j)`. -/
def coordToIndex (i j nx : Nat) : Nat := j * nx + i

/-- Model of the assembled linear system: coefficient matrix `A` and right-hand
side `b` (the Eigen `MatrixXd`/`VectorXd` output parameters of
`buildFDMSystem`), as total maps with rational entries. -/
structure LinSys where
  A : Nat → Nat → ℚ
  b : Nat → ℚ

/-- Assignment `A(r, c) = v` of a single coefficient entry. -/
def LinSys.setA (S : LinSys) (r c : Nat) (v : ℚ) : LinSys :=
  ⟨fun r' c' => if r' = r ∧ c' = c then v else S.A r' c', S.b⟩

/-- Assignment `b(r) = v` of a single right-hand-side entry. -/
def LinSys.setB (S : LinSys) (r : Nat) (v : ℚ) : LinSys :=
  ⟨S.A, fun r' => if r' = r then v else S.b r'⟩

/-- Model of `MatrixXd::Zero(n, n)` together with `VectorXd::Zero(n)`: the
all-zero system. -/
def LinSys.zero : LinSys := ⟨fun _ _ => 0, fun _ => 0⟩

/-- Model of the loop body of `ElectrostaticSolver::buildFDMSystem` at grid
point `(i, j)`: a boundary point gets a Dirichlet row (`A(idx,idx) = 1`, `b(idx)`
the supplied boundary value if the index is covered, else 0); an interior point
gets the 5-point stencil row and `b(idx) = -rho(interior_idx)/epsilon`.
`cx`, `cy`, `center` are the coefficients computed once before the loop. -/
def fdmPoint (nx ny : Nat) (cx cy center : ℚ) (rho : List ℚ) (epsilon : ℚ)
    (boundaryValues : List ℚ) (S : LinSys) (i j : Nat) : LinSys :=
  let idx := coordToIndex i j nx
  if i = 0 ∨ i = nx - 1 ∨ j = 0 ∨ j = ny - 1 then
    let S1 := S.setA idx idx 1
    if idx < boundaryValues.length then
      S1.setB idx (boundaryValues.getD idx 0)
    else
      S1.setB idx 0
  else
    let interior_idx := (i - 1) + (j - 1) * (nx - 2)
    let S1 := S.setA idx idx center
    let S2 := S1.setA idx (coordToIndex (i - 1) j nx) cx
    let S3 := S2.setA idx (coordToIndex (i + 1) j nx) cx
    let S4 := S3.setA idx (coordToIndex i (j - 1) nx) cy
    let S5 := S4.setA idx (coordToIndex i (j + 1) nx) cy
    S5.setB idx (-(rho.getD interior_idx 0) / epsilon)

/-- The loop body of `buildFDMSystem` uncurried over the pair `(j, i)` produced
by the double loop, `j` outer, `i` inner. -/
def fdmStep (nx ny : Nat) (cx cy center : ℚ) (rho : List ℚ) (epsilon : ℚ)
    (boundaryValues : List ℚ) (S : LinSys) (p : Nat × Nat) : LinSys :=
  fdmPoint nx ny cx cy center rho epsilon boundaryValues S p.2 p.1

/-- Model of `ElectrostaticSolver::buildFDMSystem`. The output parameters `A`,
`b` enter as the prior state `S₀`; the thrown `std::invalid_argument` is the
message in the second component, with the state handed back unchanged (the
throw happens before any write to `A` or `b`). The size check compares against
the C++ `int` product `(nx - 2) * (ny - 2)`, hence the `Int` cast. On success
the state is rebuilt from zero by the double loop (`j` outer, `i` inner),
modelled as a fold over `(List.range ny) ×ˢ (List.range nx)` in the same
iteration order, with pairs `(j, i)`. -/
def buildFDMSystem (nx ny : Nat) (dx dy : ℚ) (rho : List ℚ) (epsilon : ℚ)
    (boundaryValues : List ℚ) (S₀ : LinSys) : LinSys × Option String :=
  if (rho.length : Int) ≠ ((nx : Int) - 2) * ((ny : Int) - 2) then
    (S₀, some "Charge density size mismatch with interior grid points")
  else
    let cx : ℚ := 1 / (dx * dx)
    let cy : ℚ := 1 / (dy * dy)
    let center : ℚ := -2 * (cx + cy)
    (((List.range ny) ×ˢ (List.range nx)).foldl
      (fdmStep nx ny cx cy center rho epsilon boundaryValues)
      LinSys.zero, none)

/-- Model of a dense Eigen 2D array (`MatrixXd`): a shape plus a total entry
map, `entry r c` being the value at row `r`, column `c`. -/
structure Mat (α : Type) where
  rows : Nat
  cols : Nat
  entry : Nat → Nat → α

/-- Assignment `M(r, c) = v` of one entry. -/
def Mat.set {α : Type} (M : Mat α) (r c : Nat) (v : α) : Mat α :=
  ⟨M.rows, M.cols, fun r' c' => if r' = r ∧ c' = c then v else M.entry r' c'⟩

/-- Model of `MatrixXd::Zero(rows, cols)`. -/
def Mat.zero (rows cols : Nat) : Mat ℚ := ⟨rows, cols, fun _ _ => 0⟩

/-- Model of `ElectrostaticSolver::solvePotential`: reshapes the solution
vector `phi` into a `ny × nx` field, assigning `phi_field(j, i) = phi(idx)`
with `idx = coordToIndex(i, j, nx)`, looping `j` outer, `i` inner. The freshly
constructed `MatrixXd phi_field(ny, nx)` is modelled with entries 0. -/
def solvePotential (nx ny : Nat) (phi : List ℚ) : Mat ℚ :=
  ((List.range ny) ×ˢ (List.range nx)).foldl
    (fun M p => M.set p.1 p.2 (phi.getD (coordToIndex p.2 p.1 nx) 0))
    ⟨ny, nx, fun _ _ => 0⟩

/-- Model of `ElectrostaticSolver::computeElectricField`: `Ex`, `Ey` are
zero-initialised at the shape `ny × nx` of `phi_field`, then the central
differences are written on the interior only; the loops `for j = 1; j < ny-1`
and `for i = 1; i < nx-1` are `List.range' 1 (ny - 2)` and
`List.range' 1 (nx - 2)`, with pairs `(j, i)`. -/
def computeElectricField (phi_field : Mat ℚ) (dx dy : ℚ) : Mat ℚ × Mat ℚ :=
  let ny := phi_field.rows
  let nx := phi_field.cols
  ((List.range' 1 (ny - 2)) ×ˢ (List.range' 1 (nx - 2))).foldl
    (fun E p =>
      (E.1.set p.1 p.2
        (-(phi_field.entry p.1 (p.2 + 1) - phi_field.entry p.1 (p.2 - 1)) / (2 * dx)),
       E.2.set p.1 p.2
        (-(phi_field.entry (p.1 + 1) p.2 - phi_field.entry (p.1 - 1) p.2) / (2 * dy))))
    (Mat.zero ny nx, Mat.zero ny nx)

/-- Model of `ElectrostaticSolver::computeFieldMagnitude`: element-wise
`sqrt(Ex² + Ey²)`; real-valued because of the square root. The result takes
its shape from `Ex`, the element-wise array expression's leading operand.
Noncomputable only because `Real.sqrt` is; claim theorems below eliminate the
square root, so concrete instances evaluate through them. -/
noncomputable def computeFieldMagnitude (Ex Ey : Mat ℝ) : Mat ℝ :=
  ⟨Ex.rows, Ex.cols, fun j i => Real.sqrt (Ex.entry j i ^ 2 + Ey.entry j i ^ 2)⟩

/-- Model of `ElectrostaticSolver::computeEnergyDensity`:
`0.5 * epsilon * E_mag²` element-wise, with `E_mag = computeFieldMagnitude`. -/
noncomputable def computeEnergyDensity (Ex Ey : Mat ℝ) (epsilon : ℝ) : Mat ℝ :=
  let E_mag := computeFieldMagnitude Ex Ey
  ⟨E_mag.rows, E_mag.cols, fun j i => 0.5 * epsilon * E_mag.entry j i ^ 2⟩

/-- Model of `MatrixSolver::determinant`: the square-shape check, then the
external library's determinant (`A.determinant()`), modelled by Mathlib's
`Matrix.det` of the `rows × rows` restriction. -/
def determinant (A : Mat ℚ) : Except String ℚ :=
  if A.rows ≠ A.cols then
    .error "Matrix must be square to compute determinant"
  else
    .ok (Matrix.det (Matrix.of fun r c : Fin A.rows => A.entry r c))

/-- Model of `MatrixSolver::inverse`: the square-shape check, then the external
library's inverse (`A.inverse()`), modelled by the adjugate formula
`det⁻¹ • adjugate`, which is the matrix inverse whenever `A` is invertible. -/
def inverse (A : Mat ℚ) : Except String (Mat ℚ) :=
  if A.rows ≠ A.cols then
    .error "Matrix must be square to compute inverse"
  else
    let M : Matrix (Fin A.rows) (Fin A.rows) ℚ := Matrix.of fun r c => A.entry r c
    let Minv := (M.det)⁻¹ • M.adjugate
    .ok ⟨A.rows, A.rows, fun r c =>
      if h : r < A.rows ∧ c < A.rows then Minv ⟨r, h.1⟩ ⟨c, h.2⟩ else 0⟩

/-- Model of `MatrixSolver::eigenDecomposition`: the square-shape check, then
delegation to the external eigensolver (`Eigen::EigenSolver`, outside this
repository), kept abstract as the parameter `eigenSolve`; the repository's own
code contributes only the check and handing back the library's real-part
eigenvalue vector and eigenvector matrix. -/
def eigenDecomposition (eigenSolve : Mat ℚ → Mat ℚ × Mat ℚ) (A : Mat ℚ) :
    Except String (Mat ℚ × Mat ℚ) :=
  if A.rows ≠ A.cols then
    .error "Matrix must be square for eigenvalue decomposition"
  else
    .ok (eigenSolve A)

/-- Model of the state of an Eigen iterative solver after `solve`: the solution
vector together with the diagnostics the engine exposes (`iterations()`,
`error()`). -/
structure IterInfo where
  x : List ℚ
  iterations : Nat
  err : ℚ

/-- Model of `MatrixSolver::solveConjugateGradient`: the iteration cap is
`maxIterations` when positive, else `A.cols()`; the external CG engine
(`Eigen::ConjugateGradient`, outside this repository) is abstract as `cgSolve`,
taking the matrix, right-hand side, iteration cap and tolerance. The function's
return value is the first component (the solution vector only); the lines
printed to `std::cout` are the second component. -/
def solveConjugateGradient (cgSolve : Mat ℚ → List ℚ → Nat → ℚ → IterInfo)
    (A : Mat ℚ) (b : List ℚ) (maxIterations : Int) (tolerance : ℚ) :
    List ℚ × List String :=
  let maxIt : Nat := if maxIterations > 0 then maxIterations.toNat else A.cols
  let info := cgSolve A b maxIt tolerance
  (info.x,
   ["ConjugateGradient Info:",
    "  Iterations: " ++ toString info.iterations,
    "  Estimated error: " ++ toString info.err])

/-- Model of `MatrixSolver::solveGMRES`: despite the name it runs the external
BiCGSTAB engine (`Eigen::BiCGSTAB`, outside this repository, abstract as
`bicgstabSolve`); the `restart` parameter is never passed to the engine, it is
only echoed in the printed diagnostics. Return value and printed lines as in
`solveConjugateGradient`. -/
def solveGMRES (bicgstabSolve : Mat ℚ → List ℚ → Nat → ℚ → IterInfo)
    (A : Mat ℚ) (b : List ℚ) (restart maxIterations : Int) (tolerance : ℚ) :
    List ℚ × List String :=
  let maxIt : Nat := if maxIterations > 0 then maxIterations.toNat else A.cols
  let info := bicgstabSolve A b maxIt tolerance
  (info.x,
   ["BiCGSTAB Solver Info (GMRES alternative):",
    "  Restart parameter (unused for BiCGSTAB): " ++ toString restart,
    "  Iterations: " ++ toString info.iterations,
    "  Estimated error: " ++ toString info.err])

/-- Row-by-row description of the assembled FDM system following the spec's
words (§4.1): a successful call, Dirichlet identity rows with the supplied
boundary value (or 0 when the index is not covered) at boundary points, and
5-point stencil rows with `cx = 1/dx²`, `cy = 1/dy²`, center `-2*(cx+cy)` and
right-hand side `-rho(interior_idx)/epsilon` at interior points, every other
entry of each row zero. Stated of the result pair `R` of `buildFDMSystem`. -/
def FDMSpec (nx ny : Nat) (dx dy : ℚ) (rho : List ℚ) (epsilon : ℚ)
    (bv : List ℚ) (R : LinSys × Option String) : Prop :=
  R.2 = none ∧
  ∀ i j, i < nx → j < ny →
    ((i = 0 ∨ i = nx - 1 ∨ j = 0 ∨ j = ny - 1) →
      R.1.A (j * nx + i) (j * nx + i) = 1 ∧
      (∀ c, c ≠ j * nx + i → R.1.A (j * nx + i) c = 0) ∧
      R.1.b (j * nx + i) = (if j * nx + i < bv.length then bv.getD (j * nx + i) 0 else 0)) ∧
    (¬(i = 0 ∨ i = nx - 1 ∨ j = 0 ∨ j = ny - 1) →
      (i - 1) + (j - 1) * (nx - 2) < rho.length ∧
      R.1.A (j * nx + i) (j * nx + i) = -2 * (1 / (dx * dx) + 1 / (dy * dy)) ∧
      R.1.A (j * nx + i) (j * nx + i - 1) = 1 / (dx * dx) ∧
      R.1.A (j * nx + i) (j * nx + i + 1) = 1 / (dx * dx) ∧
      R.1.A (j * nx + i) (j * nx + i - nx) = 1 / (dy * dy) ∧
      R.1.A (j * nx + i) (j * nx + i + nx) = 1 / (dy * dy) ∧
      (∀ c, c ≠ j * nx + i → c ≠ j * nx + i - 1 → c ≠ j * nx + i + 1 →
        c ≠ j * nx + i - nx → c ≠ j * nx + i + nx → R.1.A (j * nx + i) c = 0) ∧
      R.1.b (j * nx + i) = -(rho.getD ((i - 1) + (j - 1) * (nx - 2)) 0) / epsilon)

/-! ### Helper lemmas: the assembler's fold touches each row exactly once -/

theorem coordToIndex_inj {nx i j i' j' : Nat} (hi : i < nx) (hi' : i' < nx)
    (h : coordToIndex i j nx = coordToIndex i' j' nx) : i = i' ∧ j = j' := by
  have hnx : 0 < nx := Nat.lt_of_le_of_lt (Nat.zero_le i) hi
  unfold coordToIndex at h
  have hii : i = i' := by
    have h2 : (j * nx + i) % nx = (j' * nx + i') % nx := by rw [h]
    rwa [Nat.mul_comm j nx, Nat.mul_comm j' nx, Nat.mul_add_mod, Nat.mul_add_mod,
      Nat.mod_eq_of_lt hi, Nat.mod_eq_of_lt hi'] at h2
  subst hii
  refine ⟨rfl, Nat.eq_of_mul_eq_mul_right hnx (Nat.add_right_cancel h)⟩

theorem fdmPoint_A_frame {nx ny : Nat} {cx cy center : ℚ} {rho : List ℚ} {epsilon : ℚ}
    {bv : List ℚ} {S : LinSys} {i j r c : Nat} (hr : r ≠ coordToIndex i j nx) :
    (fdmPoint nx ny cx cy center rho epsilon bv S i j).A r c = S.A r c := by
  simp only [fdmPoint]
  split
  · split <;> simp [LinSys.setA, LinSys.setB, hr]
  · simp [LinSys.setA, LinSys.setB, hr]

theorem fdmPoint_b_frame {nx ny : Nat} {cx cy center : ℚ} {rho : List ℚ} {epsilon : ℚ}
    {bv : List ℚ} {S : LinSys} {i j r : Nat} (hr : r ≠ coordToIndex i j nx) :
    (fdmPoint nx ny cx cy center rho epsilon bv S i j).b r = S.b r := by
  simp only [fdmPoint]
  split
  · split <;> simp [LinSys.setA, LinSys.setB, hr]
  · simp [LinSys.setA, LinSys.setB, hr]

theorem fdmPoint_row_congr {nx ny : Nat} {cx cy center : ℚ} {rho : List ℚ} {epsilon : ℚ}
    {bv : List ℚ} {S S' : LinSys} {i j : Nat}
    (hA : ∀ c, S.A (coordToIndex i j nx) c = S'.A (coordToIndex i j nx) c) :
    (∀ c, (fdmPoint nx ny cx cy center rho epsilon bv S i j).A (coordToIndex i j nx) c
        = (fdmPoint nx ny cx cy center rho epsilon bv S' i j).A (coordToIndex i j nx) c)
    ∧ (fdmPoint nx ny cx cy center rho epsilon bv S i j).b (coordToIndex i j nx)
        = (fdmPoint nx ny cx cy center rho epsilon bv S' i j).b (coordToIndex i j nx) := by
  constructor
  · intro c
    simp only [fdmPoint]
    split
    · split <;> simp [LinSys.setA, LinSys.setB] <;> split_ifs <;> simp [hA c]
    · simp [LinSys.setA, LinSys.setB]
      split_ifs <;> simp [hA c]
  · simp only [fdmPoint]
    split
    · split <;> simp [LinSys.setA, LinSys.setB]
    · simp [LinSys.setA, LinSys.setB]

theorem foldl_fdm_frame {nx ny : Nat} {cx cy center : ℚ} {rho : List ℚ} {epsilon : ℚ}
    {bv : List ℚ} :
    ∀ (L : List (Nat × Nat)) (S : LinSys) {r : Nat},
      (∀ p ∈ L, r ≠ coordToIndex p.2 p.1 nx) →
      (∀ c, (L.foldl (fdmStep nx ny cx cy center rho epsilon bv) S).A r c = S.A r c)
      ∧ (L.foldl (fdmStep nx ny cx cy center rho epsilon bv) S).b r = S.b r := by
  intro L
  induction L with
  | nil => intro S r _; exact ⟨fun _ => rfl, rfl⟩
  | cons p L ih =>
      intro S r hL
      have hp : r ≠ coordToIndex p.2 p.1 nx := hL p (List.mem_cons_self p L)
      have hrest := ih (fdmStep nx ny cx cy center rho epsilon bv S p)
        (fun q hq => hL q (List.mem_cons_of_mem p hq))
      refine ⟨fun c => ?_, ?_⟩
      · rw [List.foldl_cons, hrest.1 c]
        exact fdmPoint_A_frame hp
      · rw [List.foldl_cons, hrest.2]
        exact fdmPoint_b_frame hp

theorem foldl_fdm_row {nx ny : Nat} {cx cy center : ℚ} {rho : List ℚ} {epsilon : ℚ}
    {bv : List ℚ} :
    ∀ (L : List (Nat × Nat)) (S : LinSys) {i₀ j₀ : Nat},
      (j₀, i₀) ∈ L →
      (∀ p ∈ L, coordToIndex p.2 p.1 nx = coordToIndex i₀ j₀ nx → p = (j₀, i₀)) →
      L.Nodup →
      (∀ c, S.A (coordToIndex i₀ j₀ nx) c = 0) →
      (∀ c, (L.foldl (fdmStep nx ny cx cy center rho epsilon bv) S).A (coordToIndex i₀ j₀ nx) c
          = (fdmPoint nx ny cx cy center rho epsilon bv LinSys.zero i₀ j₀).A (coordToIndex i₀ j₀ nx) c)
      ∧ (L.foldl (fdmStep nx ny cx cy center rho epsilon bv) S).b (coordToIndex i₀ j₀ nx)
          = (fdmPoint nx ny cx cy center rho epsilon bv LinSys.zero i₀ j₀).b (coordToIndex i₀ j₀ nx) := by
  intro L
  induction L with
  | nil => intro S i₀ j₀ hmem; exact absurd hmem (List.not_mem_nil _)
  | cons p L ih =>
      intro S i₀ j₀ hmem huniq hnd hzero
      rcases List.mem_cons.mp hmem with hp | hmemL
      · -- the head is the target point; the tail never touches the row again
        subst hp
        have hnotL : (j₀, i₀) ∉ L := (List.nodup_cons.mp hnd).1
        have htail : ∀ q ∈ L, coordToIndex i₀ j₀ nx ≠ coordToIndex q.2 q.1 nx := by
          intro q hq hEq
          exact hnotL (huniq q (List.mem_cons_of_mem _ hq) hEq.symm ▸ hq)
        have hframe := @foldl_fdm_frame nx ny cx cy center rho epsilon bv L
          (fdmStep nx ny cx cy center rho epsilon bv S (j₀, i₀)) (coordToIndex i₀ j₀ nx) htail
        have hcongr := @fdmPoint_row_congr nx ny cx cy center rho epsilon bv
          S LinSys.zero i₀ j₀ hzero
        refine ⟨fun c => ?_, ?_⟩
        · rw [List.foldl_cons, hframe.1 c]; exact hcongr.1 c
        · rw [List.foldl_cons, hframe.2]; exact hcongr.2
      · -- the head is a different point: it leaves the target row untouched
        have hp_ne : p ≠ (j₀, i₀) := by
          rintro rfl
          exact (List.nodup_cons.mp hnd).1 hmemL
        have hidx_ne : coordToIndex i₀ j₀ nx ≠ coordToIndex p.2 p.1 nx := by
          intro hEq
          exact hp_ne (huniq p (List.mem_cons_self _ _) hEq.symm)
        have hzero' : ∀ c,
            (fdmStep nx ny cx cy center rho epsilon bv S p).A (coordToIndex i₀ j₀ nx) c = 0 :=
          fun c => (fdmPoint_A_frame hidx_ne).trans (hzero c)
        have := ih (fdmStep nx ny cx cy center rho epsilon bv S p) hmemL
          (fun q hq => huniq q (List.mem_cons_of_mem _ hq)) (List.nodup_cons.mp hnd).2 hzero'
        rw [List.foldl_cons]
        exact this

theorem fdmPoint_boundary_row {nx ny : Nat} {cx cy center : ℚ} {rho : List ℚ}
    {epsilon : ℚ} {bv : List ℚ} {i j : Nat}
    (hb : i = 0 ∨ i = nx - 1 ∨ j = 0 ∨ j = ny - 1) :
    (∀ c, (fdmPoint nx ny cx cy center rho epsilon bv LinSys.zero i j).A (coordToIndex i j nx) c
        = if c = coordToIndex i j nx then 1 else 0)
    ∧ (fdmPoint nx ny cx cy center rho epsilon bv LinSys.zero i j).b (coordToIndex i j nx)
        = (if coordToIndex i j nx < bv.length then bv.getD (coordToIndex i j nx) 0 else 0) := by
  constructor
  · intro c
    simp only [fdmPoint, if_pos hb]
    split <;> simp [LinSys.setA, LinSys.setB, LinSys.zero]
  · simp only [fdmPoint, if_pos hb]
    split <;> simp_all [LinSys.setA, LinSys.setB]

theorem fdmPoint_interior_row {nx ny : Nat} {cx cy center : ℚ} {rho : List ℚ}
    {epsilon : ℚ} {bv : List ℚ} {i j : Nat} (hnx : 3 ≤ nx)
    (hi1 : 1 ≤ i) (hi2 : i + 1 < nx) (hj1 : 1 ≤ j) (hj2 : j + 1 < ny) :
    (∀ c, (fdmPoint nx ny cx cy center rho epsilon bv LinSys.zero i j).A (coordToIndex i j nx) c
        = if c = coordToIndex i j nx then center
          else if c = coordToIndex i j nx - 1 then cx
          else if c = coordToIndex i j nx + 1 then cx
          else if c = coordToIndex i j nx - nx then cy
          else if c = coordToIndex i j nx + nx then cy
          else 0)
    ∧ (fdmPoint nx ny cx cy center rho epsilon bv LinSys.zero i j).b (coordToIndex i j nx)
        = -(rho.getD ((i - 1) + (j - 1) * (nx - 2)) 0) / epsilon := by
  have hnb : ¬(i = 0 ∨ i = nx - 1 ∨ j = 0 ∨ j = ny - 1) := by omega
  have ht : nx ≤ j * nx := Nat.le_mul_of_pos_left nx (by omega)
  have e1 : coordToIndex (i - 1) j nx = coordToIndex i j nx - 1 := by
    unfold coordToIndex; omega
  have e2 : coordToIndex (i + 1) j nx = coordToIndex i j nx + 1 := by
    unfold coordToIndex; omega
  have e3 : coordToIndex i (j - 1) nx = coordToIndex i j nx - nx := by
    unfold coordToIndex
    have hsub : (j - 1) * nx = j * nx - nx := by rw [Nat.sub_one_mul]
    omega
  have e4 : coordToIndex i (j + 1) nx = coordToIndex i j nx + nx := by
    unfold coordToIndex
    have hadd : (j + 1) * nx = j * nx + nx := by rw [Nat.succ_mul]
    omega
  have hge : nx + 1 ≤ coordToIndex i j nx := by unfold coordToIndex; omega
  constructor
  · intro c
    simp only [fdmPoint, if_neg hnb, e1, e2, e3, e4]
    simp only [LinSys.setA, LinSys.setB, LinSys.zero]
    simp only [true_and, if_true, eq_self_iff_true]
    split_ifs <;> first | rfl | omega
  · simp only [fdmPoint, if_neg hnb]
    simp [LinSys.setA, LinSys.setB]

theorem buildFDM_row {nx ny : Nat} {dx dy : ℚ} {rho : List ℚ} {epsilon : ℚ}
    {bv : List ℚ} {S₀ : LinSys} {i j : Nat} (hi : i < nx) (hj : j < ny)
    (hlen : (rho.length : Int) = ((nx : Int) - 2) * ((ny : Int) - 2)) :
    (∀ c, (buildFDMSystem nx ny dx dy rho epsilon bv S₀).1.A (coordToIndex i j nx) c
        = (fdmPoint nx ny (1 / (dx * dx)) (1 / (dy * dy))
            (-2 * (1 / (dx * dx) + 1 / (dy * dy))) rho epsilon bv LinSys.zero i j).A
            (coordToIndex i j nx) c)
    ∧ (buildFDMSystem nx ny dx dy rho epsilon bv S₀).1.b (coordToIndex i j nx)
        = (fdmPoint nx ny (1 / (dx * dx)) (1 / (dy * dy))
            (-2 * (1 / (dx * dx) + 1 / (dy * dy))) rho epsilon bv LinSys.zero i j).b
            (coordToIndex i j nx) := by
  have hcond : ¬((rho.length : Int) ≠ ((nx : Int) - 2) * ((ny : Int) - 2)) := by
    simpa using hlen
  have hmem : (j, i) ∈ (List.range ny) ×ˢ (List.range nx) :=
    List.mem_product.mpr ⟨List.mem_range.mpr hj, List.mem_range.mpr hi⟩
  have hnd : ((List.range ny) ×ˢ (List.range nx)).Nodup :=
    (List.nodup_range ny).product (List.nodup_range nx)
  have huniq : ∀ p ∈ (List.range ny) ×ˢ (List.range nx),
      coordToIndex p.2 p.1 nx = coordToIndex i j nx → p = (j, i) := by
    rintro ⟨pj, pi⟩ hp hEq
    have hpm := List.mem_product.mp hp
    simp only at hEq
    have h2 := coordToIndex_inj (List.mem_range.mp hpm.2) hi hEq
    rw [h2.1, h2.2]
  have hzero : ∀ c, LinSys.zero.A (coordToIndex i j nx) c = 0 := fun _ => rfl
  have hrow := @foldl_fdm_row nx ny (1 / (dx * dx)) (1 / (dy * dy))
    (-2 * (1 / (dx * dx) + 1 / (dy * dy))) rho epsilon bv
    ((List.range ny) ×ˢ (List.range nx)) LinSys.zero i j hmem huniq hnd hzero
  simpa only [buildFDMSystem, if_neg hcond] using hrow

/-- C1: for every valid call `buildFDMSystem(nx, ny, dx, dy, rho, epsilon, A, b,
boundaryValues)` with `len(rho) = (nx-2)*(ny-2)`, the produced system satisfies,
for every grid point `(i, j)` with `idx = j*nx+i`: a boundary point gets row
`idx` of `A` all zero except `A[idx][idx] = 1` and `b[idx]` the supplied
boundary value (0 when the index is not covered); an interior point gets
`A[idx][idx] = -2*(cx+cy)` with `cx = 1/dx²`, `cy = 1/dy²`, the four neighbor
entries `A[idx][idx∓1] = cx`, `A[idx][idx∓nx] = cy`, every other entry of the
row zero, and `b[idx] = -rho[(i-1)+(j-1)*(nx-2)]/epsilon`. -/
theorem buildFDMSystem_rows_spec (nx ny : Nat) (dx dy : ℚ) (rho : List ℚ)
    (epsilon : ℚ) (bv : List ℚ) (S₀ : LinSys)
    (hnx : 3 ≤ nx) (hny : 3 ≤ ny) (hdx : 0 < dx) (hdy : 0 < dy) (heps : epsilon ≠ 0)
    (hlen : rho.length = (nx - 2) * (ny - 2)) :
    FDMSpec nx ny dx dy rho epsilon bv (buildFDMSystem nx ny dx dy rho epsilon bv S₀) := by
  have h2x : ((nx - 2 : Nat) : Int) = (nx : Int) - 2 := by omega
  have h2y : ((ny - 2 : Nat) : Int) = (ny : Int) - 2 := by omega
  have hlenI : (rho.length : Int) = ((nx : Int) - 2) * ((ny : Int) - 2) := by
    rw [hlen, Nat.cast_mul, h2x, h2y]
  have hcond : ¬((rho.length : Int) ≠ ((nx : Int) - 2) * ((ny : Int) - 2)) := by
    simpa using hlenI
  refine ⟨by simp only [buildFDMSystem, if_neg hcond], ?_⟩
  intro i j hi hj
  have hid : coordToIndex i j nx = j * nx + i := rfl
  have hrow := @buildFDM_row nx ny dx dy rho epsilon bv S₀ i j hi hj hlenI
  constructor
  · -- boundary point
    intro hb
    have hpt := @fdmPoint_boundary_row nx ny (1 / (dx * dx)) (1 / (dy * dy))
      (-2 * (1 / (dx * dx) + 1 / (dy * dy))) rho epsilon bv i j hb
    rw [hid] at hrow hpt
    refine ⟨?_, ?_, ?_⟩
    · rw [hrow.1 (j * nx + i), hpt.1 (j * nx + i), if_pos rfl]
    · intro c hc
      rw [hrow.1 c, hpt.1 c, if_neg hc]
    · rw [hrow.2, hpt.2]
  · -- interior point
    intro hnb
    have hi1 : 1 ≤ i := by omega
    have hi2 : i + 1 < nx := by omega
    have hj1 : 1 ≤ j := by omega
    have hj2 : j + 1 < ny := by omega
    have hpt := @fdmPoint_interior_row nx ny (1 / (dx * dx)) (1 / (dy * dy))
      (-2 * (1 / (dx * dx) + 1 / (dy * dy))) rho epsilon bv i j hnx hi1 hi2 hj1 hj2
    rw [hid] at hrow hpt
    have ht : nx ≤ j * nx := Nat.le_mul_of_pos_left nx (by omega)
    have hge : nx + 1 ≤ j * nx + i := by omega
    have hlt : (i - 1) + (j - 1) * (nx - 2) < rho.length := by
      have f1 : (j - 1) * (nx - 2) ≤ (ny - 3) * (nx - 2) :=
        Nat.mul_le_mul (by omega) (Nat.le_refl _)
      have f2 : (ny - 3) * (nx - 2) + (nx - 2) = (ny - 2) * (nx - 2) := by
        have h3 : ny - 3 + 1 = ny - 2 := by omega
        rw [← h3, Nat.succ_mul]
      have f3 : (nx - 2) * (ny - 2) = (ny - 2) * (nx - 2) := Nat.mul_comm _ _
      rw [hlen]
      omega
    refine ⟨hlt, ?_, ?_, ?_, ?_, ?_, ?_, ?_⟩
    · rw [hrow.1 (j * nx + i), hpt.1 (j * nx + i), if_pos rfl]
    · rw [hrow.1 (j * nx + i - 1), hpt.1 (j * nx + i - 1),
        if_neg (by omega), if_pos rfl]
    · rw [hrow.1 (j * nx + i + 1), hpt.1 (j * nx + i + 1),
        if_neg (by omega), if_neg (by omega), if_pos rfl]
    · rw [hrow.1 (j * nx + i - nx), hpt.1 (j * nx + i - nx),
        if_neg (by omega), if_neg (by omega), if_neg (by omega), if_pos rfl]
    · rw [hrow.1 (j * nx + i + nx), hpt.1 (j * nx + i + nx),
        if_neg (by omega), if_neg (by omega), if_neg (by omega), if_neg (by omega),
        if_pos rfl]
    · intro c hc0 hc1 hc2 hc3 hc4
      rw [hrow.1 c, hpt.1 c,
        if_neg hc0, if_neg hc1, if_neg hc2, if_neg hc3, if_neg hc4]
    · rw [hrow.2, hpt.2]

/-- Witness for C1: the spec's row description holds of the assembled system on
the concrete grid `nx = ny = 3`, `dx = dy = 1`, `rho = [2]`, `epsilon = 1`,
boundary values `10..90`. -/
theorem buildFDMSystem_rows_spec_witness :
    ((3 : Nat) ≤ 3 ∧ (0 : ℚ) < 1 ∧ (1 : ℚ) ≠ 0 ∧
      List.length [(2 : ℚ)] = (3 - 2) * (3 - 2)) ∧
    FDMSpec 3 3 1 1 [2] 1 [10, 20, 30, 40, 50, 60, 70, 80, 90]
      (buildFDMSystem 3 3 1 1 [2] 1 [10, 20, 30, 40, 50, 60, 70, 80, 90] LinSys.zero) :=
  ⟨⟨by decide, by norm_num, by norm_num, by decide⟩,
   buildFDMSystem_rows_spec 3 3 1 1 [2] 1 [10, 20, 30, 40, 50, 60, 70, 80, 90]
     LinSys.zero (by decide) (by decide) (by norm_num) (by norm_num) (by norm_num)
     (by decide)⟩

/-- C2: for every grid with `nx ≥ 3`, `ny ≥ 3` and every `rho` whose length is
not `(nx-2)*(ny-2)`, `buildFDMSystem` fails with the invalid-argument error and
the output parameters `A`, `b` keep their prior values: the state `S₀` is handed
back unchanged, no partial system is produced. -/
theorem buildFDMSystem_len_mismatch (nx ny : Nat) (dx dy : ℚ) (rho : List ℚ)
    (epsilon : ℚ) (bv : List ℚ) (S₀ : LinSys) (hnx : 3 ≤ nx) (hny : 3 ≤ ny)
    (hlen : rho.length ≠ (nx - 2) * (ny - 2)) :
    buildFDMSystem nx ny dx dy rho epsilon bv S₀ =
      (S₀, some "Charge density size mismatch with interior grid points") := by
  have h2x : ((nx - 2 : Nat) : Int) = (nx : Int) - 2 := by omega
  have h2y : ((ny - 2 : Nat) : Int) = (ny : Int) - 2 := by omega
  have hcond : (rho.length : Int) ≠ ((nx : Int) - 2) * ((ny : Int) - 2) := by
    rw [← h2x, ← h2y, ← Nat.cast_mul]
    exact_mod_cast hlen
  simp only [buildFDMSystem, if_pos hcond]

/-- Witness for C2 at the minimal valid grid `nx = ny = 3` with an empty `rho`
(length 0 instead of 1): the call fails and returns the prior state. -/
theorem buildFDMSystem_len_mismatch_witness :
    ((3 : Nat) ≤ 3 ∧ List.length ([] : List ℚ) ≠ (3 - 2) * (3 - 2)) ∧
    buildFDMSystem 3 3 1 1 ([] : List ℚ) 1 [] LinSys.zero =
      (LinSys.zero, some "Charge density size mismatch with interior grid points") :=
  ⟨⟨by decide, by decide⟩,
   buildFDMSystem_len_mismatch 3 3 1 1 [] 1 [] LinSys.zero (by decide) (by decide)
     (by decide)⟩

/-- C9: for every successful call to `buildFDMSystem` and every interior grid
point with linear index `idx = j*nx + i`, the entries of row `idx` of the
assembled matrix over the `n = nx*ny` columns sum to exactly zero: the center
coefficient `-2*(cx+cy)` is the exact negative of `cx + cx + cy + cy`. -/
theorem buildFDMSystem_interior_row_sum (nx ny : Nat) (dx dy : ℚ) (rho : List ℚ)
    (epsilon : ℚ) (bv : List ℚ) (S₀ : LinSys) (i j : Nat)
    (hnx : 3 ≤ nx) (hny : 3 ≤ ny) (hlen : rho.length = (nx - 2) * (ny - 2))
    (hi1 : 1 ≤ i) (hi2 : i + 1 < nx) (hj1 : 1 ≤ j) (hj2 : j + 1 < ny) :
    ∑ c ∈ Finset.range (nx * ny),
      (buildFDMSystem nx ny dx dy rho epsilon bv S₀).1.A (j * nx + i) c = 0 := by
  have h2x : ((nx - 2 : Nat) : Int) = (nx : Int) - 2 := by omega
  have h2y : ((ny - 2 : Nat) : Int) = (ny : Int) - 2 := by omega
  have hlenI : (rho.length : Int) = ((nx : Int) - 2) * ((ny : Int) - 2) := by
    rw [hlen, Nat.cast_mul, h2x, h2y]
  have hrow := @buildFDM_row nx ny dx dy rho epsilon bv S₀ i j (by omega) (by omega) hlenI
  have hpt := @fdmPoint_interior_row nx ny (1 / (dx * dx)) (1 / (dy * dy))
    (-2 * (1 / (dx * dx) + 1 / (dy * dy))) rho epsilon bv i j hnx hi1 hi2 hj1 hj2
  have hid : coordToIndex i j nx = j * nx + i := rfl
  rw [hid] at hrow hpt
  have ht : nx ≤ j * nx := Nat.le_mul_of_pos_left nx (by omega)
  have hge : nx + 1 ≤ j * nx + i := by omega
  have f1 : (j + 1) * nx ≤ (ny - 1) * nx := Nat.mul_le_mul (by omega) (Nat.le_refl nx)
  have f2 : (ny - 1) * nx + nx = ny * nx := by
    have h3 : ny - 1 + 1 = ny := by omega
    have h4 : (ny - 1 + 1) * nx = (ny - 1) * nx + nx := Nat.succ_mul _ _
    rw [h3] at h4
    omega
  have f3 : ny * nx = nx * ny := Nat.mul_comm _ _
  have f4 : (j + 1) * nx = j * nx + nx := Nat.succ_mul _ _
  have hA : ∀ c, (buildFDMSystem nx ny dx dy rho epsilon bv S₀).1.A (j * nx + i) c
      = (if c = j * nx + i then -2 * (1 / (dx * dx) + 1 / (dy * dy))
         else if c = j * nx + i - 1 then 1 / (dx * dx)
         else if c = j * nx + i + 1 then 1 / (dx * dx)
         else if c = j * nx + i - nx then 1 / (dy * dy)
         else if c = j * nx + i + nx then 1 / (dy * dy)
         else 0) := fun c => (hrow.1 c).trans (hpt.1 c)
  have hsub : ({j * nx + i - nx, j * nx + i - 1, j * nx + i,
      j * nx + i + 1, j * nx + i + nx} : Finset ℕ) ⊆ Finset.range (nx * ny) := by
    intro c hc
    simp only [Finset.mem_insert, Finset.mem_singleton] at hc
    rw [Finset.mem_range]
    omega
  calc ∑ c ∈ Finset.range (nx * ny),
        (buildFDMSystem nx ny dx dy rho epsilon bv S₀).1.A (j * nx + i) c
      = ∑ c ∈ Finset.range (nx * ny),
        (if c = j * nx + i then -2 * (1 / (dx * dx) + 1 / (dy * dy))
         else if c = j * nx + i - 1 then 1 / (dx * dx)
         else if c = j * nx + i + 1 then 1 / (dx * dx)
         else if c = j * nx + i - nx then 1 / (dy * dy)
         else if c = j * nx + i + nx then 1 / (dy * dy)
         else 0) := Finset.sum_congr rfl (fun c _ => hA c)
    _ = ∑ c ∈ ({j * nx + i - nx, j * nx + i - 1, j * nx + i,
        j * nx + i + 1, j * nx + i + nx} : Finset ℕ),
        (if c = j * nx + i then -2 * (1 / (dx * dx) + 1 / (dy * dy))
         else if c = j * nx + i - 1 then 1 / (dx * dx)
         else if c = j * nx + i + 1 then 1 / (dx * dx)
         else if c = j * nx + i - nx then 1 / (dy * dy)
         else if c = j * nx + i + nx then 1 / (dy * dy)
         else 0) := by
        refine (Finset.sum_subset hsub ?_).symm
        intro c _ hcs
        simp only [Finset.mem_insert, Finset.mem_singleton, not_or] at hcs
        rw [if_neg hcs.2.2.1, if_neg hcs.2.1, if_neg hcs.2.2.2.1,
          if_neg hcs.1, if_neg hcs.2.2.2.2]
    _ = 0 := by
        rw [Finset.sum_insert (by
            simp only [Finset.mem_insert, Finset.mem_singleton]; omega),
          Finset.sum_insert (by
            simp only [Finset.mem_insert, Finset.mem_singleton]; omega),
          Finset.sum_insert (by
            simp only [Finset.mem_insert, Finset.mem_singleton]; omega),
          Finset.sum_insert (by simp only [Finset.mem_singleton]; omega),
          Finset.sum_singleton]
        rw [if_neg (by omega), if_neg (by omega), if_neg (by omega), if_pos rfl]
        rw [if_neg (by omega), if_pos rfl]
        rw [if_pos rfl]
        rw [if_neg (by omega), if_neg (by omega), if_pos rfl]
        rw [if_neg (by omega), if_neg (by omega), if_neg (by omega), if_neg (by omega),
          if_pos rfl]
        ring

/-- Witness for C9 at `nx = ny = 3`, interior point `(1,1)` (row 4): the row sum
over the 9 columns is zero. -/
theorem buildFDMSystem_interior_row_sum_witness :
    ((3 : Nat) ≤ 3 ∧ List.length [(2 : ℚ)] = (3 - 2) * (3 - 2) ∧
      (1 : Nat) ≤ 1 ∧ 1 + 1 < 3) ∧
    ∑ c ∈ Finset.range (3 * 3),
      (buildFDMSystem 3 3 1 1 [2] 1 [10, 20, 30, 40, 50, 60, 70, 80, 90]
        LinSys.zero).1.A (1 * 3 + 1) c = 0 :=
  ⟨⟨by decide, by decide, by decide, by decide⟩,
   buildFDMSystem_interior_row_sum 3 3 1 1 [2] 1 [10, 20, 30, 40, 50, 60, 70, 80, 90]
     LinSys.zero 1 1 (by decide) (by decide) (by decide) (by decide) (by decide)
     (by decide) (by decide)⟩

theorem fdmPoint_bv_congr {nx ny : Nat} {cx cy center : ℚ} {rho : List ℚ}
    {epsilon : ℚ} {bv₁ bv₂ : List ℚ} {S : LinSys} {i j : Nat}
    (h : (i = 0 ∨ i = nx - 1 ∨ j = 0 ∨ j = ny - 1) →
      bv₁.getD (coordToIndex i j nx) 0 = bv₂.getD (coordToIndex i j nx) 0) :
    fdmPoint nx ny cx cy center rho epsilon bv₁ S i j
      = fdmPoint nx ny cx cy center rho epsilon bv₂ S i j := by
  simp only [fdmPoint]
  split
  · rename_i hb
    have e : ∀ (bv : List ℚ),
        (if coordToIndex i j nx < bv.length
         then (S.setA (coordToIndex i j nx) (coordToIndex i j nx) 1).setB
           (coordToIndex i j nx) (bv.getD (coordToIndex i j nx) 0)
         else (S.setA (coordToIndex i j nx) (coordToIndex i j nx) 1).setB
           (coordToIndex i j nx) 0)
        = (S.setA (coordToIndex i j nx) (coordToIndex i j nx) 1).setB
            (coordToIndex i j nx) (bv.getD (coordToIndex i j nx) 0) := by
      intro bv
      by_cases hL : coordToIndex i j nx < bv.length
      · rw [if_pos hL]
      · rw [if_neg hL, List.getD_eq_default _ _ (by omega)]
    rw [e bv₁, e bv₂, h hb]
  · rfl

theorem foldl_fdm_bv_congr {nx ny : Nat} {cx cy center : ℚ} {rho : List ℚ}
    {epsilon : ℚ} {bv₁ bv₂ : List ℚ} :
    ∀ (L : List (Nat × Nat)) (S : LinSys),
      (∀ p ∈ L, (p.2 = 0 ∨ p.2 = nx - 1 ∨ p.1 = 0 ∨ p.1 = ny - 1) →
        bv₁.getD (coordToIndex p.2 p.1 nx) 0 = bv₂.getD (coordToIndex p.2 p.1 nx) 0) →
      L.foldl (fdmStep nx ny cx cy center rho epsilon bv₁) S
        = L.foldl (fdmStep nx ny cx cy center rho epsilon bv₂) S := by
  intro L
  induction L with
  | nil => intro S _; rfl
  | cons p L ih =>
      intro S hL
      rw [List.foldl_cons, List.foldl_cons]
      have hstep : fdmStep nx ny cx cy center rho epsilon bv₁ S p
          = fdmStep nx ny cx cy center rho epsilon bv₂ S p :=
        fdmPoint_bv_congr (hL p (List.mem_cons_self _ _))
      rw [hstep]
      exact ih _ (fun q hq => hL q (List.mem_cons_of_mem _ hq))

/-- C10: the output of `buildFDMSystem` depends on `boundaryValues` only at
boundary linear indices. Two calls identical except for the boundary-value
sequences, which agree (reading indices beyond a sequence's length as 0) at
every boundary-point index but may differ arbitrarily at interior-point
indices, produce identical results. -/
theorem buildFDMSystem_bv_interior_irrelevant (nx ny : Nat) (dx dy : ℚ)
    (rho : List ℚ) (epsilon : ℚ) (bv₁ bv₂ : List ℚ) (S₀ : LinSys)
    (h : ∀ i, i < nx → ∀ j, j < ny → (i = 0 ∨ i = nx - 1 ∨ j = 0 ∨ j = ny - 1) →
      bv₁.getD (j * nx + i) 0 = bv₂.getD (j * nx + i) 0) :
    buildFDMSystem nx ny dx dy rho epsilon bv₁ S₀
      = buildFDMSystem nx ny dx dy rho epsilon bv₂ S₀ := by
  by_cases hc : (rho.length : Int) ≠ ((nx : Int) - 2) * ((ny : Int) - 2)
  · simp only [buildFDMSystem, if_pos hc]
  · simp only [buildFDMSystem, if_neg hc]
    have hfold := @foldl_fdm_bv_congr nx ny (1 / (dx * dx)) (1 / (dy * dy))
      (-2 * (1 / (dx * dx) + 1 / (dy * dy))) rho epsilon bv₁ bv₂
      ((List.range ny) ×ˢ (List.range nx)) LinSys.zero ?_
    · rw [hfold]
    · rintro ⟨pj, pi⟩ hp hb
      have hpm := List.mem_product.mp hp
      exact h pi (List.mem_range.mp hpm.2) pj (List.mem_range.mp hpm.1) hb

/-- Witness for C10 at `nx = ny = 3`: the two boundary-value sequences agree on
all boundary indices and differ at the interior index 4, and the assembled
systems coincide. -/
theorem buildFDMSystem_bv_interior_irrelevant_witness :
    (∀ i, i < 3 → ∀ j, j < 3 → (i = 0 ∨ i = 3 - 1 ∨ j = 0 ∨ j = 3 - 1) →
      List.getD [(10 : ℚ), 20, 30, 40, 50, 60, 70, 80, 90] (j * 3 + i) 0
        = List.getD [(10 : ℚ), 20, 30, 40, 99, 60, 70, 80, 90] (j * 3 + i) 0) ∧
    buildFDMSystem 3 3 1 1 [2] 1 [10, 20, 30, 40, 50, 60, 70, 80, 90] LinSys.zero
      = buildFDMSystem 3 3 1 1 [2] 1 [10, 20, 30, 40, 99, 60, 70, 80, 90] LinSys.zero :=
  ⟨by decide,
   buildFDMSystem_bv_interior_irrelevant 3 3 1 1 [2] 1
     [10, 20, 30, 40, 50, 60, 70, 80, 90] [10, 20, 30, 40, 99, 60, 70, 80, 90]
     LinSys.zero (by decide)⟩

/-! ### Helper lemmas: folds that write each cell once, with a value depending
only on the cell -/

theorem foldl_set_shape {α : Type} (f : Nat × Nat → α) :
    ∀ (L : List (Nat × Nat)) (M : Mat α),
      (L.foldl (fun M p => M.set p.1 p.2 (f p)) M).rows = M.rows ∧
      (L.foldl (fun M p => M.set p.1 p.2 (f p)) M).cols = M.cols := by
  intro L
  induction L with
  | nil => intro M; exact ⟨rfl, rfl⟩
  | cons p L ih =>
      intro M
      rw [List.foldl_cons]
      exact ⟨(ih _).1.trans rfl, (ih _).2.trans rfl⟩

theorem foldl_set_frame {α : Type} (f : Nat × Nat → α) :
    ∀ (L : List (Nat × Nat)) (M : Mat α) {r c : Nat},
      (∀ p ∈ L, p ≠ (r, c)) →
      (L.foldl (fun M p => M.set p.1 p.2 (f p)) M).entry r c = M.entry r c := by
  intro L
  induction L with
  | nil => intro M r c _; rfl
  | cons p L ih =>
      intro M r c hL
      rw [List.foldl_cons, ih _ (fun q hq => hL q (List.mem_cons_of_mem _ hq))]
      have hp : p ≠ (r, c) := hL p (List.mem_cons_self _ _)
      obtain ⟨pa, pb⟩ := p
      simp only [Mat.set]
      rw [if_neg]
      rintro ⟨h1, h2⟩
      exact hp (by rw [h1, h2])

theorem foldl_set_hit {α : Type} (f : Nat × Nat → α) :
    ∀ (L : List (Nat × Nat)) (M : Mat α) {r c : Nat},
      (r, c) ∈ L →
      (L.foldl (fun M p => M.set p.1 p.2 (f p)) M).entry r c = f (r, c) := by
  intro L
  induction L with
  | nil => intro M r c hmem; exact absurd hmem (List.not_mem_nil _)
  | cons p L ih =>
      intro M r c hmem
      by_cases hmemL : (r, c) ∈ L
      · rw [List.foldl_cons]
        exact ih _ hmemL
      · have hp : p = (r, c) := by
          rcases List.mem_cons.mp hmem with h | h
          · exact h.symm
          · exact absurd h hmemL
        subst hp
        rw [List.foldl_cons,
          foldl_set_frame f L _ (fun q hq => by rintro rfl; exact hmemL hq)]
        simp [Mat.set]

/-- C5: for every `nx ≥ 1`, `ny ≥ 1` and solution vector `phi` of length
`nx*ny`, `solvePotential` returns a field of shape `ny × nx` whose entry at
row `j`, column `i` is `phi(j*nx + i)` — the `[j][i]` layout, transposed
relative to the linear-index convention. -/
theorem solvePotential_spec (nx ny : Nat) (phi : List ℚ)
    (hnx : 1 ≤ nx) (hny : 1 ≤ ny) (hlen : phi.length = nx * ny) :
    (solvePotential nx ny phi).rows = ny ∧ (solvePotential nx ny phi).cols = nx ∧
    ∀ j i, j < ny → i < nx →
      j * nx + i < phi.length ∧
      (solvePotential nx ny phi).entry j i = phi.getD (j * nx + i) 0 := by
  simp only [solvePotential]
  refine ⟨(foldl_set_shape _ _ _).1, (foldl_set_shape _ _ _).2, ?_⟩
  intro j i hj hi
  constructor
  · rw [hlen]
    have f1 : (j + 1) * nx ≤ ny * nx := Nat.mul_le_mul (by omega) (Nat.le_refl nx)
    have f4 : (j + 1) * nx = j * nx + nx := Nat.succ_mul _ _
    have f3 : ny * nx = nx * ny := Nat.mul_comm _ _
    omega
  · exact foldl_set_hit _ _ _
      (List.mem_product.mpr ⟨List.mem_range.mpr hj, List.mem_range.mpr hi⟩)

/-- Witness for C5 at `nx = 2`, `ny = 3`, `phi = [1,2,3,4,5,6]`: shape `3 × 2`
and, e.g., entry `(2, 1)` is `phi(2*2+1) = 6`. -/
theorem solvePotential_spec_witness :
    ((1 : Nat) ≤ 2 ∧ (1 : Nat) ≤ 3 ∧ List.length [(1 : ℚ), 2, 3, 4, 5, 6] = 2 * 3) ∧
    ((solvePotential 2 3 [1, 2, 3, 4, 5, 6]).rows = 3 ∧
     (solvePotential 2 3 [1, 2, 3, 4, 5, 6]).cols = 2 ∧
     ∀ j i, j < 3 → i < 2 →
       j * 2 + i < List.length [(1 : ℚ), 2, 3, 4, 5, 6] ∧
       (solvePotential 2 3 [1, 2, 3, 4, 5, 6]).entry j i
         = List.getD [(1 : ℚ), 2, 3, 4, 5, 6] (j * 2 + i) 0) :=
  ⟨⟨by decide, by decide, by decide⟩,
   solvePotential_spec 2 3 [1, 2, 3, 4, 5, 6] (by decide) (by decide) (by decide)⟩

theorem computeEF_fold_split (phi_field : Mat ℚ) (dx dy : ℚ) :
    ∀ (L : List (Nat × Nat)) (M N : Mat ℚ),
      L.foldl (fun E p =>
        (E.1.set p.1 p.2
          (-(phi_field.entry p.1 (p.2 + 1) - phi_field.entry p.1 (p.2 - 1)) / (2 * dx)),
         E.2.set p.1 p.2
          (-(phi_field.entry (p.1 + 1) p.2 - phi_field.entry (p.1 - 1) p.2) / (2 * dy))))
        (M, N)
      = (L.foldl (fun M p => M.set p.1 p.2
          (-(phi_field.entry p.1 (p.2 + 1) - phi_field.entry p.1 (p.2 - 1)) / (2 * dx))) M,
         L.foldl (fun M p => M.set p.1 p.2
          (-(phi_field.entry (p.1 + 1) p.2 - phi_field.entry (p.1 - 1) p.2) / (2 * dy))) N) := by
  intro L
  induction L with
  | nil => intro M N; rfl
  | cons p L ih =>
      intro M N
      rw [List.foldl_cons, List.foldl_cons, List.foldl_cons]
      exact ih _ _

/-- C6: `computeElectricField` produces `Ex`, `Ey` of the same `ny × nx` shape
as the potential field; on every interior cell the second-order central
differences of the negative gradient, on every boundary cell zero. -/
theorem computeElectricField_spec (phi_field : Mat ℚ) (dx dy : ℚ)
    (hdx : 0 < dx) (hdy : 0 < dy) :
    ((computeElectricField phi_field dx dy).1.rows = phi_field.rows ∧
     (computeElectricField phi_field dx dy).1.cols = phi_field.cols ∧
     (computeElectricField phi_field dx dy).2.rows = phi_field.rows ∧
     (computeElectricField phi_field dx dy).2.cols = phi_field.cols) ∧
    (∀ j i, 1 ≤ j → j + 1 < phi_field.rows → 1 ≤ i → i + 1 < phi_field.cols →
      (computeElectricField phi_field dx dy).1.entry j i
        = -(phi_field.entry j (i + 1) - phi_field.entry j (i - 1)) / (2 * dx) ∧
      (computeElectricField phi_field dx dy).2.entry j i
        = -(phi_field.entry (j + 1) i - phi_field.entry (j - 1) i) / (2 * dy)) ∧
    (∀ j i, j < phi_field.rows → i < phi_field.cols →
      (i = 0 ∨ i = phi_field.cols - 1 ∨ j = 0 ∨ j = phi_field.rows - 1) →
      (computeElectricField phi_field dx dy).1.entry j i = 0 ∧
      (computeElectricField phi_field dx dy).2.entry j i = 0) := by
  simp only [computeElectricField, computeEF_fold_split]
  refine ⟨⟨(foldl_set_shape _ _ _).1, (foldl_set_shape _ _ _).2,
    (foldl_set_shape _ _ _).1, (foldl_set_shape _ _ _).2⟩, ?_, ?_⟩
  · intro j i hj1 hj2 hi1 hi2
    have hmem : (j, i) ∈ (List.range' 1 (phi_field.rows - 2))
        ×ˢ (List.range' 1 (phi_field.cols - 2)) := by
      refine List.mem_product.mpr ⟨?_, ?_⟩
      · rw [List.mem_range'_1]; omega
      · rw [List.mem_range'_1]; omega
    exact ⟨foldl_set_hit _ _ _ hmem, foldl_set_hit _ _ _ hmem⟩
  · intro j i hj hi hb
    have hnm : ∀ p ∈ (List.range' 1 (phi_field.rows - 2))
        ×ˢ (List.range' 1 (phi_field.cols - 2)), p ≠ (j, i) := by
      rintro ⟨pj, pi⟩ hp
      have hpm := List.mem_product.mp hp
      rw [List.mem_range'_1] at hpm
      obtain ⟨hpj, hpi⟩ := hpm
      rw [List.mem_range'_1] at hpi
      intro hEq
      injection hEq with hEq1 hEq2
      omega
    exact ⟨foldl_set_frame _ _ _ hnm, foldl_set_frame _ _ _ hnm⟩

/-- Witness for C6 on the 3×3 field with entries `10j + i`, `dx = dy = 1`:
the interior cell carries the central differences, a boundary cell is zero. -/
theorem computeElectricField_spec_witness :
    (0 : ℚ) < 1 ∧
    (computeElectricField ⟨3, 3, fun j i => (j : ℚ) * 10 + (i : ℚ)⟩ 1 1).1.rows = 3 ∧
    (computeElectricField ⟨3, 3, fun j i => (j : ℚ) * 10 + (i : ℚ)⟩ 1 1).1.entry 1 1
      = -1 ∧
    (computeElectricField ⟨3, 3, fun j i => (j : ℚ) * 10 + (i : ℚ)⟩ 1 1).2.entry 1 1
      = -10 ∧
    (computeElectricField ⟨3, 3, fun j i => (j : ℚ) * 10 + (i : ℚ)⟩ 1 1).1.entry 0 1
      = 0 := by
  have H := computeElectricField_spec ⟨3, 3, fun j i => (j : ℚ) * 10 + (i : ℚ)⟩ 1 1
    (by norm_num) (by norm_num)
  have hint := H.2.1 1 1 (by decide) (by decide) (by decide) (by decide)
  have hbd := H.2.2 0 1 (by decide) (by decide) (by decide)
  refine ⟨by norm_num, H.1.1, ?_, ?_, hbd.1⟩
  · rw [hint.1]; norm_num
  · rw [hint.2]; norm_num

/-- C7: each entry of `computeEnergyDensity Ex Ey epsilon` equals
`0.5 * epsilon * (Ex² + Ey²)` at that cell (the square root in the
intermediate field magnitude cancels exactly); the result keeps the shape, is
non-negative wherever `epsilon ≥ 0`, and scales linearly in `epsilon`. -/
theorem computeEnergyDensity_spec (Ex Ey : Mat ℝ) (epsilon : ℝ) (j i : Nat) :
    (computeEnergyDensity Ex Ey epsilon).rows = Ex.rows ∧
    (computeEnergyDensity Ex Ey epsilon).cols = Ex.cols ∧
    (computeEnergyDensity Ex Ey epsilon).entry j i
      = 0.5 * epsilon * (Ex.entry j i ^ 2 + Ey.entry j i ^ 2) ∧
    (0 ≤ epsilon → 0 ≤ (computeEnergyDensity Ex Ey epsilon).entry j i) ∧
    (∀ c : ℝ, (computeEnergyDensity Ex Ey (c * epsilon)).entry j i
      = c * (computeEnergyDensity Ex Ey epsilon).entry j i) := by
  have hval : ∀ e : ℝ, (computeEnergyDensity Ex Ey e).entry j i
      = 0.5 * e * (Ex.entry j i ^ 2 + Ey.entry j i ^ 2) := by
    intro e
    simp only [computeEnergyDensity, computeFieldMagnitude]
    rw [Real.sq_sqrt (by positivity)]
  refine ⟨rfl, rfl, hval epsilon, ?_, ?_⟩
  · intro he
    rw [hval epsilon]
    have h1 : (0 : ℝ) ≤ Ex.entry j i ^ 2 + Ey.entry j i ^ 2 := by positivity
    have h2 : (0 : ℝ) ≤ 0.5 * epsilon := by linarith
    exact mul_nonneg h2 h1
  · intro c
    rw [hval, hval]
    ring

/-- Witness for C7 with constant 1×1 fields `Ex = 3`, `Ey = 4`, `epsilon = 2`:
the energy density entry is `0.5 * 2 * (9 + 16) = 25` and non-negative. -/
theorem computeEnergyDensity_spec_witness :
    (0 : ℝ) ≤ 2 ∧
    (computeEnergyDensity ⟨1, 1, fun _ _ => 3⟩ ⟨1, 1, fun _ _ => 4⟩ 2).entry 0 0 = 25 ∧
    0 ≤ (computeEnergyDensity ⟨1, 1, fun _ _ => 3⟩ ⟨1, 1, fun _ _ => 4⟩ 2).entry 0 0 := by
  have H := computeEnergyDensity_spec ⟨1, 1, fun _ _ => 3⟩ ⟨1, 1, fun _ _ => 4⟩ 2 0 0
  refine ⟨by norm_num, ?_, H.2.2.2.1 (by norm_num)⟩
  rw [H.2.2.1]
  norm_num

/-- C8: `determinant`, `inverse` and `eigenDecomposition` fail with their
invalid-argument errors exactly on non-square input — the check precedes any
computation — and on square input none of the three produces this error. -/
theorem squareOnly_ops_spec (A : Mat ℚ) (eigenSolve : Mat ℚ → Mat ℚ × Mat ℚ) :
    (A.rows ≠ A.cols →
      determinant A = Except.error "Matrix must be square to compute determinant" ∧
      inverse A = Except.error "Matrix must be square to compute inverse" ∧
      eigenDecomposition eigenSolve A
        = Except.error "Matrix must be square for eigenvalue decomposition") ∧
    (A.rows = A.cols →
      (determinant A).isOk = true ∧ (inverse A).isOk = true ∧
      (eigenDecomposition eigenSolve A).isOk = true) := by
  constructor
  · intro h
    refine ⟨?_, ?_, ?_⟩
    · unfold determinant; rw [if_pos h]
    · unfold inverse; rw [if_pos h]
    · unfold eigenDecomposition; rw [if_pos h]
  · intro h
    have hn : ¬A.rows ≠ A.cols := by omega
    refine ⟨?_, ?_, ?_⟩
    · unfold determinant; rw [if_neg hn]; rfl
    · unfold inverse; rw [if_neg hn]; rfl
    · unfold eigenDecomposition; rw [if_neg hn]; rfl

/-- Witness for C8: a 2×3 and a 5×1 matrix make all three operations fail; a
2×2 matrix makes none of them fail. -/
theorem squareOnly_ops_spec_witness :
    ((2 : Nat) ≠ 3 ∧
      determinant ⟨2, 3, fun _ _ => 1⟩
        = Except.error "Matrix must be square to compute determinant" ∧
      inverse ⟨2, 3, fun _ _ => 1⟩
        = Except.error "Matrix must be square to compute inverse" ∧
      eigenDecomposition (fun M => (M, M)) ⟨2, 3, fun _ _ => 1⟩
        = Except.error "Matrix must be square for eigenvalue decomposition") ∧
    ((5 : Nat) ≠ 1 ∧
      determinant ⟨5, 1, fun _ _ => 1⟩
        = Except.error "Matrix must be square to compute determinant") ∧
    ((2 : Nat) = 2 ∧
      (determinant ⟨2, 2, fun _ _ => 1⟩).isOk = true ∧
      (inverse ⟨2, 2, fun _ _ => 1⟩).isOk = true ∧
      (eigenDecomposition (fun M => (M, M)) ⟨2, 2, fun _ _ => 1⟩).isOk = true) := by
  have H1 := squareOnly_ops_spec ⟨2, 3, fun _ _ => 1⟩ (fun M => (M, M))
  have H2 := squareOnly_ops_spec ⟨5, 1, fun _ _ => 1⟩ (fun M => (M, M))
  have H3 := squareOnly_ops_spec ⟨2, 2, fun _ _ => 1⟩ (fun M => (M, M))
  exact ⟨⟨by decide, H1.1 (by decide)⟩, ⟨by decide, (H2.1 (by decide)).1⟩,
    ⟨rfl, H3.2 rfl⟩⟩

/-- Counterexample for C3: the diagnostics are not part of the value the
iterative solvers hand back. Two engine runs on the same concrete system that
agree on the solution `[1, 2]` but differ in iteration count (3 vs 7) and
residual estimate produce identical return values from
`solveConjugateGradient` and from `solveGMRES`; only the printed lines differ.
So convergence cannot be decided from what the caller receives. -/
theorem solve_diagnostics_not_in_result :
    (solveConjugateGradient (fun _ _ _ _ => ⟨[1, 2], 3, 1/10⟩)
        ⟨2, 2, fun _ _ => 1⟩ [1, 2] 10 (1/1000)).1
      = (solveConjugateGradient (fun _ _ _ _ => ⟨[1, 2], 7, 1/2⟩)
        ⟨2, 2, fun _ _ => 1⟩ [1, 2] 10 (1/1000)).1
    ∧ (3 : Nat) ≠ 7
    ∧ (solveConjugateGradient (fun _ _ _ _ => ⟨[1, 2], 3, 1/10⟩)
        ⟨2, 2, fun _ _ => 1⟩ [1, 2] 10 (1/1000)).2
      ≠ (solveConjugateGradient (fun _ _ _ _ => ⟨[1, 2], 7, 1/2⟩)
        ⟨2, 2, fun _ _ => 1⟩ [1, 2] 10 (1/1000)).2
    ∧ (solveGMRES (fun _ _ _ _ => ⟨[1, 2], 3, 1/10⟩)
        ⟨2, 2, fun _ _ => 1⟩ [1, 2] 30 10 (1/1000)).1
      = (solveGMRES (fun _ _ _ _ => ⟨[1, 2], 7, 1/2⟩)
        ⟨2, 2, fun _ _ => 1⟩ [1, 2] 30 10 (1/1000)).1
    ∧ (solveGMRES (fun _ _ _ _ => ⟨[1, 2], 3, 1/10⟩)
        ⟨2, 2, fun _ _ => 1⟩ [1, 2] 30 10 (1/1000)).2
      ≠ (solveGMRES (fun _ _ _ _ => ⟨[1, 2], 7, 1/2⟩)
        ⟨2, 2, fun _ _ => 1⟩ [1, 2] 30 10 (1/1000)).2 := by
  refine ⟨rfl, by decide, by decide, rfl, by decide⟩

/-- C3 amended: each of the two iterative solvers hands back only the engine's
solution vector; the iteration count and the residual-error estimate appear
only in the printed diagnostic lines (modelled as the second component), so
the caller cannot distinguish convergence from budget exhaustion from the
returned value alone. -/
theorem solve_diagnostics_printed_only
    (engine : Mat ℚ → List ℚ → Nat → ℚ → IterInfo) (A : Mat ℚ) (b : List ℚ)
    (restart maxIterations : Int) (tolerance : ℚ) :
    (solveConjugateGradient engine A b maxIterations tolerance).1
      = (engine A b (if maxIterations > 0 then maxIterations.toNat else A.cols)
          tolerance).x
    ∧ ("  Iterations: " ++ toString (engine A b
          (if maxIterations > 0 then maxIterations.toNat else A.cols)
          tolerance).iterations)
        ∈ (solveConjugateGradient engine A b maxIterations tolerance).2
    ∧ ("  Estimated error: " ++ toString (engine A b
          (if maxIterations > 0 then maxIterations.toNat else A.cols)
          tolerance).err)
        ∈ (solveConjugateGradient engine A b maxIterations tolerance).2
    ∧ (solveGMRES engine A b restart maxIterations tolerance).1
      = (engine A b (if maxIterations > 0 then maxIterations.toNat else A.cols)
          tolerance).x
    ∧ ("  Iterations: " ++ toString (engine A b
          (if maxIterations > 0 then maxIterations.toNat else A.cols)
          tolerance).iterations)
        ∈ (solveGMRES engine A b restart maxIterations tolerance).2
    ∧ ("  Estimated error: " ++ toString (engine A b
          (if maxIterations > 0 then maxIterations.toNat else A.cols)
          tolerance).err)
        ∈ (solveGMRES engine A b restart maxIterations tolerance).2 := by
  refine ⟨rfl, ?_, ?_, rfl, ?_, ?_⟩ <;>
    simp [solveConjugateGradient, solveGMRES]

/-- C4: the `restart` parameter of `solveGMRES` has no influence on the
computed solution: for every square system and any two restart values the
returned solution vectors coincide, because the BiCGSTAB engine that actually
runs is configured without `restart`. -/
theorem solveGMRES_restart_irrelevant
    (engine : Mat ℚ → List ℚ → Nat → ℚ → IterInfo) (A : Mat ℚ) (b : List ℚ)
    (r1 r2 maxIterations : Int) (tolerance : ℚ) (hsq : A.rows = A.cols) :
    (solveGMRES engine A b r1 maxIterations tolerance).1
      = (solveGMRES engine A b r2 maxIterations tolerance).1 := rfl

/-- Witness for C4 on a concrete square system with restart values 30 and 77:
the returned solutions coincide. -/
theorem solveGMRES_restart_irrelevant_witness :
    ((⟨2, 2, fun _ _ => (1 : ℚ)⟩ : Mat ℚ).rows = (⟨2, 2, fun _ _ => (1 : ℚ)⟩ : Mat ℚ).cols) ∧
    (solveGMRES (fun A b _ t => ⟨b, 5, t⟩) ⟨2, 2, fun _ _ => (1 : ℚ)⟩ [1, 2] 30 10 (1/1000)).1
      = (solveGMRES (fun A b _ t => ⟨b, 5, t⟩) ⟨2, 2, fun _ _ => (1 : ℚ)⟩ [1, 2] 77 10 (1/1000)).1 :=
  ⟨rfl, solveGMRES_restart_irrelevant (fun A b _ t => ⟨b, 5, t⟩)
    ⟨2, 2, fun _ _ => (1 : ℚ)⟩ [1, 2] 30 77 10 (1/1000) rfl⟩
